import Mathlib

/-!
Shallow embedding of the `logbuf` package (`src/logbuf.go`): an SQLite-backed
buffer for raw log lines.  The `log` table holds `(timestamp, entry)` rows, a
`log_settings` singleton holds the retention policy `(maxAge_ns, maxLines)`,
and an `AFTER INSERT` trigger `log_trim` first deletes rows older than
`NEW.timestamp - maxAge_ns` (when `maxAge_ns > 0`) and then deletes every row
outside the `maxLines` most recent by `(timestamp, rowid)` (when
`maxLines > 0`).  `sqliteBuf` wraps the store with lazy open, idempotent
close, and destructive clear.  Timestamps are assigned by the store clock;
the embedding passes them in explicitly as an oracle argument.  Rowids are
modelled by a monotone counter, and the payload (`entry BLOB`) by the Go
string of its bytes.
-/

/-- One row of the `log` table: SQLite rowid, the integer nanosecond
timestamp assigned by the column `DEFAULT` clause, and the stored payload. -/
structure Entry where
  rowid : Nat
  timestamp : Int
  payload : String
deriving DecidableEq

/-- Go's `unicode.IsSpace` on a rune: the characters of the Unicode
`White_Space` property (which in the Latin-1 range is `\t \n \v \f \r`,
space, NEL and NBSP). -/
def goIsSpace (c : Char) : Bool :=
  c == ' ' || c == '\t' || c == '\n' || c == Char.ofNat 11 || c == Char.ofNat 12 ||
  c == '\r' || c == Char.ofNat 0x85 || c == Char.ofNat 0xA0 ||
  c == Char.ofNat 0x1680 ||
  (decide (0x2000 ≤ c.toNat) && decide (c.toNat ≤ 0x200A)) ||
  c == Char.ofNat 0x2028 || c == Char.ofNat 0x2029 || c == Char.ofNat 0x202F ||
  c == Char.ofNat 0x205F || c == Char.ofNat 0x3000

/-- Go's `strings.TrimSpace`: strip leading and trailing white space runes. -/
def trimSpace (s : String) : String :=
  (((s.toList.dropWhile goIsSpace).reverse.dropWhile goIsSpace).reverse).asString

/-- The ordering used by the `idx_log_ts` index scans backing
`ORDER BY timestamp`: ascending timestamp, ties broken by rowid
(insertion sequence). -/
def entryLE (a b : Entry) : Prop :=
  a.timestamp < b.timestamp ∨ (a.timestamp = b.timestamp ∧ a.rowid ≤ b.rowid)

instance (a b : Entry) : Decidable (entryLE a b) :=
  inferInstanceAs (Decidable
    (a.timestamp < b.timestamp ∨ (a.timestamp = b.timestamp ∧ a.rowid ≤ b.rowid)))

instance : IsTotal Entry entryLE :=
  ⟨fun a b => by unfold entryLE; omega⟩

instance : IsTrans Entry entryLE :=
  ⟨fun a b c hab hbc => by unfold entryLE at *; omega⟩

/-- Result sequence of `SELECT ... ORDER BY timestamp` over the `log` table. -/
def orderByTimestamp (l : List Entry) : List Entry :=
  List.insertionSort entryLE l

/-- First statement of the `log_trim` trigger body: when `maxAge_ns > 0`,
delete every row with `timestamp < NEW.timestamp - maxAge_ns`. -/
def ageTrim (ts maxAge : Int) (l : List Entry) : List Entry :=
  if 0 < maxAge then l.filter (fun e => decide (ts - maxAge ≤ e.timestamp)) else l

/-- Second statement of the `log_trim` trigger body: when `maxLines > 0`,
delete every row whose rowid is not among the
`ORDER BY timestamp DESC LIMIT maxLines` rows. -/
def countTrim (maxLines : Int) (l : List Entry) : List Entry :=
  if 0 < maxLines then
    l.filter (fun e =>
      decide (e.rowid ∈ ((orderByTimestamp l).reverse.take maxLines.toNat).map Entry.rowid))
  else l

/-- The on-disk database: the `log` rows in rowid order, the next rowid to be
assigned, and the `log_settings` singleton `(maxAge_ns, maxLines)`. -/
structure Store where
  nextRowid : Nat
  entries : List Entry
  maxAge_ns : Int
  maxLines : Int
deriving DecidableEq

/-- `INSERT INTO log(entry) VALUES (?)` together with the `log_trim` trigger:
append the new row with the clock-assigned timestamp `ts`, then run the age
delete and the count delete of the trigger body in order. -/
def Store.insert (s : Store) (p : String) (ts : Int) : Store :=
  let inserted := s.entries ++ [⟨s.nextRowid, ts, p⟩]
  let aged := ageTrim ts s.maxAge_ns inserted
  { s with nextRowid := s.nextRowid + 1, entries := countTrim s.maxLines aged }

/-- `SELECT entry FROM log ORDER BY timestamp`, each payload decoded as a Go
string and passed through `strings.TrimSpace` (the loop in `Dump`). -/
def Store.dump (s : Store) : List String :=
  (orderByTimestamp s.entries).map (fun e => trimSpace e.payload)

/-- Fold of `Store.insert` over a list of (payload, timestamp) pairs. -/
def Store.writeAll (s : Store) (ps : List (String × Int)) : Store :=
  ps.foldl (fun c q => c.insert q.1 q.2) s

/-- The `sqliteBuf` handle: the bound policy and path, the open connection
(`db` field; `none` when closed) and the persisted file content while no
connection is open (`none` when the file does not exist). -/
structure Buf where
  maxLines : Int
  maxAge_ns : Int
  dbPath : String
  db : Option Store
  file : Option Store
deriving DecidableEq

/-- The store obtained by `open`: the existing file content if any (its
`log_settings` overwritten by `INSERT OR REPLACE` with the handle's policy),
or a freshly created schema. -/
def Buf.storeFor (b : Buf) : Store :=
  match b.file with
  | some st => { st with maxAge_ns := b.maxAge_ns, maxLines := b.maxLines }
  | none => { nextRowid := 1, entries := [], maxAge_ns := b.maxAge_ns, maxLines := b.maxLines }

/-- `sqliteBuf.open`: (re)create the connection, run the setup SQL and record
the policy. -/
def Buf.openDB (b : Buf) : Buf :=
  { b with db := some b.storeFor, file := none }

/-- The double-checked acquisition loop shared by `Write` and `Dump`: read
`db` under the shared lock; when it is `nil`, `ensureOpen` and retry. -/
def Buf.acquire (b : Buf) : Buf × Store :=
  match b.db with
  | some st => (b, st)
  | none => (b.openDB, b.storeFor)

/-- `sqliteBuf.Write`: insert the bytes as one entry, returning `len(p)`. -/
def Buf.write (b : Buf) (p : String) (ts : Int) : Buf × Nat :=
  let a := b.acquire
  ({ a.1 with db := some (a.2.insert p ts) }, p.utf8ByteSize)

/-- `sqliteBuf.WriteString`: delegate to `Write`, dropping the count. -/
def Buf.writeString (b : Buf) (s : String) (ts : Int) : Buf :=
  (b.write s ts).1

/-- `sqliteBuf.Dump`: acquire the store and run the dump query. -/
def Buf.dump (b : Buf) : Buf × List String :=
  let a := b.acquire
  (a.1, a.2.dump)

/-- `sqliteBuf.Close`: close the connection when one is held; the persisted
file keeps the data unless the database lives in memory. -/
def Buf.close (b : Buf) : Buf :=
  match b.db with
  | some st =>
      { b with db := none, file := if b.dbPath = ":memory:" then none else some st }
  | none => b

/-- `sqliteBuf.Clear`: close the connection, remove the database file, and
always return `nil` (modelled as `none`). -/
def Buf.clear (b : Buf) : Buf × Option String :=
  ({ b with db := none, file := none }, none)

/-- The error message of `New` when both constraints are zero. -/
def configErrorMsg : String :=
  "logbuf: at least one of maxLines or maxAge must be non-zero"

/-- `logbuf.New`: reject a policy with both constraints zero, otherwise
build the handle and open it eagerly. -/
def New (maxLines : Int) (maxAge : Int) (dbPath : String) : Except String Buf :=
  if maxLines = 0 ∧ maxAge = 0 then Except.error configErrorMsg
  else Except.ok (Buf.openDB
    { maxLines := maxLines, maxAge_ns := maxAge, dbPath := dbPath, db := none, file := none })

/-- Fold of `Buf.writeString` over a list of (payload, timestamp) pairs. -/
def Buf.writeAll (b : Buf) (ps : List (String × Int)) : Buf :=
  ps.foldl (fun c q => c.writeString q.1 q.2) b

/-- One public operation on the handle, with its oracle inputs. -/
inductive Op where
  | write (p : String) (ts : Int)
  | writeString (s : String) (ts : Int)
  | dump
  | close
  | clear

/-- Apply one public operation, keeping only the successor state. -/
def Buf.applyOp (b : Buf) : Op → Buf
  | Op.write p ts => (b.write p ts).1
  | Op.writeString s ts => b.writeString s ts
  | Op.dump => (b.dump).1
  | Op.close => b.close
  | Op.clear => (b.clear).1

/-- Apply a sequence of public operations left to right. -/
def Buf.applyOps (b : Buf) (ops : List Op) : Buf :=
  ops.foldl Buf.applyOp b

/-- The list of entries rowid-numbered consecutively from `r0`, as produced
by consecutive inserts of the given (payload, timestamp) pairs. -/
def withRowids (r0 : Nat) : List (String × Int) → List Entry
  | [] => []
  | q :: qs => ⟨r0, q.2, q.1⟩ :: withRowids (r0 + 1) qs

/-! Helper lemmas about `withRowids`. -/

theorem withRowids_length (r0 : Nat) (ps : List (String × Int)) :
    (withRowids r0 ps).length = ps.length := by
  induction ps generalizing r0 with
  | nil => rfl
  | cons q qs ih => simp [withRowids, ih]

theorem withRowids_append (r0 : Nat) (xs ys : List (String × Int)) :
    withRowids r0 (xs ++ ys) = withRowids r0 xs ++ withRowids (r0 + xs.length) ys := by
  induction xs generalizing r0 with
  | nil => simp [withRowids]
  | cons q qs ih =>
    simp only [List.cons_append, withRowids, List.length_cons, List.append_eq]
    rw [ih (r0 + 1)]
    have h : r0 + 1 + qs.length = r0 + (qs.length + 1) := by omega
    rw [h]

theorem withRowids_drop (r0 j : Nat) (ps : List (String × Int)) :
    (withRowids r0 ps).drop j = withRowids (r0 + j) (ps.drop j) := by
  induction ps generalizing r0 j with
  | nil => simp [withRowids]
  | cons q qs ih =>
    cases j with
    | zero => simp
    | succ j' =>
      simp only [withRowids, List.drop_succ_cons, ih (r0 + 1) j']
      have h : r0 + 1 + j' = r0 + (j' + 1) := by omega
      rw [h]

theorem withRowids_map_rowid (r0 : Nat) (ps : List (String × Int)) :
    (withRowids r0 ps).map Entry.rowid = List.range' r0 ps.length := by
  induction ps generalizing r0 with
  | nil => rfl
  | cons q qs ih => simp [withRowids, List.range'_succ, ih]

theorem withRowids_map_payload (g : String → String) (r0 : Nat) (ps : List (String × Int)) :
    (withRowids r0 ps).map (fun e => g e.payload) = ps.map (fun q => g q.1) := by
  induction ps generalizing r0 with
  | nil => rfl
  | cons q qs ih => simp [withRowids, ih]

theorem mem_withRowids_ts {e : Entry} {r0 : Nat} {ps : List (String × Int)}
    (h : e ∈ withRowids r0 ps) : ∃ q ∈ ps, e.timestamp = q.2 := by
  induction ps generalizing r0 with
  | nil => simp [withRowids] at h
  | cons q qs ih =>
    simp only [withRowids, List.mem_cons] at h
    rcases h with h | h
    · exact ⟨q, List.mem_cons_self q qs, by rw [h]⟩
    · obtain ⟨q', hq', hts⟩ := ih h
      exact ⟨q', List.mem_cons_of_mem q hq', hts⟩

theorem mem_withRowids_rowid {e : Entry} {r0 : Nat} {ps : List (String × Int)}
    (h : e ∈ withRowids r0 ps) : r0 ≤ e.rowid := by
  induction ps generalizing r0 with
  | nil => simp [withRowids] at h
  | cons q qs ih =>
    simp only [withRowids, List.mem_cons] at h
    rcases h with h | h
    · rw [h]
    · exact Nat.le_of_succ_le (ih h)

theorem sorted_withRowids (r0 : Nat) {ps : List (String × Int)}
    (h : ps.Pairwise (fun x y => x.2 ≤ y.2)) :
    List.Sorted entryLE (withRowids r0 ps) := by
  induction ps generalizing r0 with
  | nil => exact List.sorted_nil
  | cons q qs ih =>
    rcases List.pairwise_cons.mp h with ⟨hq, hqs⟩
    refine List.sorted_cons.mpr ⟨?_, ih (r0 + 1) hqs⟩
    intro e he
    obtain ⟨q', hq', hts⟩ := mem_withRowids_ts he
    have hr := mem_withRowids_rowid he
    have hle := hq q' hq'
    unfold entryLE
    simp only
    omega

/-! Helper lemmas about the two trigger deletes. -/

theorem ageTrim_eq_self {ts a : Int} {l : List Entry}
    (h : 0 < a → ∀ e ∈ l, ts - a ≤ e.timestamp) : ageTrim ts a l = l := by
  unfold ageTrim
  split_ifs with ha
  · exact List.filter_eq_self.mpr (fun e he => by simpa using h ha e he)
  · rfl

theorem mem_of_mem_ageTrim {ts a : Int} {l : List Entry} {e : Entry}
    (h : e ∈ ageTrim ts a l) : e ∈ l := by
  unfold ageTrim at h
  split_ifs at h
  · exact (List.mem_filter.mp h).1
  · exact h

theorem ts_of_mem_ageTrim {ts a : Int} {l : List Entry} {e : Entry}
    (ha : 0 < a) (h : e ∈ ageTrim ts a l) : ts - a ≤ e.timestamp := by
  unfold ageTrim at h
  rw [if_pos ha] at h
  simpa using (List.mem_filter.mp h).2

theorem mem_of_mem_countTrim {k : Int} {l : List Entry} {e : Entry}
    (h : e ∈ countTrim k l) : e ∈ l := by
  unfold countTrim at h
  split_ifs at h
  · exact (List.mem_filter.mp h).1
  · exact h

theorem countTrim_eq_self {k : Int} {l : List Entry} (h : l.length ≤ k.toNat) :
    countTrim k l = l := by
  unfold countTrim orderByTimestamp
  split_ifs with hk
  · refine List.filter_eq_self.mpr (fun e he => ?_)
    have hmem : e ∈ (List.insertionSort entryLE l).reverse.take k.toNat := by
      rw [List.take_of_length_le]
      · exact List.mem_reverse.mpr ((List.perm_insertionSort entryLE l).mem_iff.mpr he)
      · rw [List.length_reverse, (List.perm_insertionSort entryLE l).length_eq]
        exact h
    simpa using List.mem_map_of_mem Entry.rowid hmem
  · rfl

theorem filter_mem_rowid_append (t d : List Entry)
    (hn : ((t ++ d).map Entry.rowid).Nodup) :
    (t ++ d).filter (fun e => decide (e.rowid ∈ (d.reverse).map Entry.rowid)) = d := by
  have hdisj : (t.map Entry.rowid).Disjoint (d.map Entry.rowid) := by
    rw [List.map_append] at hn
    exact (List.nodup_append.mp hn).2.2
  rw [List.filter_append]
  have h1 : t.filter (fun e => decide (e.rowid ∈ (d.reverse).map Entry.rowid)) = [] := by
    refine List.filter_eq_nil_iff.mpr (fun e he => ?_)
    simp only [decide_eq_true_eq, List.mem_map, List.mem_reverse]
    rintro ⟨e', he', hre⟩
    exact hdisj (List.mem_map_of_mem Entry.rowid he)
      (hre ▸ List.mem_map_of_mem Entry.rowid he')
  have h2 : d.filter (fun e => decide (e.rowid ∈ (d.reverse).map Entry.rowid)) = d := by
    refine List.filter_eq_self.mpr (fun e he => ?_)
    simp only [decide_eq_true_eq, List.mem_map, List.mem_reverse]
    exact ⟨e, he, rfl⟩
  rw [h1, h2, List.nil_append]

theorem countTrim_sorted {k : Int} {l : List Entry}
    (hs : List.Sorted entryLE l) (hn : (l.map Entry.rowid).Nodup) (hk : 0 < k) :
    countTrim k l = l.drop (l.length - k.toNat) := by
  unfold countTrim orderByTimestamp
  rw [if_pos hk, hs.insertionSort_eq, List.take_reverse]
  have h3 := filter_mem_rowid_append (l.take (l.length - k.toNat))
    (l.drop (l.length - k.toNat)) (by rw [List.take_append_drop]; exact hn)
  rw [List.take_append_drop] at h3
  exact h3

theorem countTrim_eq_self_of {k : Int} {l : List Entry}
    (h : 0 < k → l.length ≤ k.toNat) : countTrim k l = l := by
  by_cases hk : 0 < k
  · exact countTrim_eq_self (h hk)
  · unfold countTrim
    rw [if_neg hk]

/-! The fold of inserts on a store that never reaches either retention
constraint accumulates every written entry in insertion order. -/

theorem Store.writeAll_no_trim (a k : Int) (r0 : Nat) (pre ps : List (String × Int))
    (hage : 0 < a → (pre ++ ps).Pairwise (fun x y => y.2 - x.2 ≤ a))
    (hcount : 0 < k → (pre ++ ps).length ≤ k.toNat) :
    Store.writeAll ⟨r0 + pre.length, withRowids r0 pre, a, k⟩ ps
      = ⟨r0 + (pre ++ ps).length, withRowids r0 (pre ++ ps), a, k⟩ := by
  induction ps generalizing pre with
  | nil => simp [Store.writeAll]
  | cons q qs ih =>
    have happ : withRowids r0 pre ++ [⟨r0 + pre.length, q.2, q.1⟩]
        = withRowids r0 (pre ++ [q]) := by
      rw [withRowids_append]
      rfl
    have hA : ageTrim q.2 a (withRowids r0 (pre ++ [q])) = withRowids r0 (pre ++ [q]) := by
      refine ageTrim_eq_self (fun ha e he => ?_)
      obtain ⟨q', hq', hts⟩ := mem_withRowids_ts he
      rw [hts]
      rcases List.mem_append.mp hq' with h | h
      · have hp := (List.pairwise_append.mp (hage ha)).2.2
        have hrel : q.2 - q'.2 ≤ a := hp q' h q (List.mem_cons_self q qs)
        omega
      · have hq : q' = q := by simpa using h
        rw [hq]
        omega
    have hC : countTrim k (withRowids r0 (pre ++ [q])) = withRowids r0 (pre ++ [q]) := by
      refine countTrim_eq_self_of (fun hk => ?_)
      rw [withRowids_length]
      have := hcount hk
      simp only [List.length_append, List.length_cons, List.length_nil] at this ⊢
      omega
    have hstep : Store.insert ⟨r0 + pre.length, withRowids r0 pre, a, k⟩ q.1 q.2
        = ⟨r0 + (pre ++ [q]).length, withRowids r0 (pre ++ [q]), a, k⟩ := by
      simp only [Store.insert, happ, hA, hC]
      have h : r0 + pre.length + 1 = r0 + (pre ++ [q]).length := by
        simp only [List.length_append, List.length_cons, List.length_nil]
        omega
      rw [h]
    have hlist : (pre ++ [q]) ++ qs = pre ++ q :: qs := by simp
    have hrec := ih (pre ++ [q]) (by rw [hlist]; exact hage) (by rw [hlist]; exact hcount)
    show Store.writeAll (Store.insert ⟨r0 + pre.length, withRowids r0 pre, a, k⟩ q.1 q.2) qs = _
    rw [hstep, hrec, hlist]

/-! The fold of inserts on a store with only the count constraint active
keeps exactly the most recent `maxLines` entries. -/

theorem Store.writeAll_count (k : Int) (hk : 0 < k) (r0 : Nat) (pre ps : List (String × Int))
    (hmono : (pre ++ ps).Pairwise (fun x y => x.2 ≤ y.2)) :
    Store.writeAll ⟨r0 + pre.length,
        withRowids (r0 + (pre.length - k.toNat)) (pre.drop (pre.length - k.toNat)), 0, k⟩ ps
      = ⟨r0 + (pre ++ ps).length,
        withRowids (r0 + ((pre ++ ps).length - k.toNat))
          ((pre ++ ps).drop ((pre ++ ps).length - k.toNat)), 0, k⟩ := by
  induction ps generalizing pre with
  | nil => simp [Store.writeAll]
  | cons q qs ih =>
    have happ : withRowids (r0 + (pre.length - k.toNat)) (pre.drop (pre.length - k.toNat)) ++
        [⟨r0 + pre.length, q.2, q.1⟩]
        = withRowids (r0 + (pre.length - k.toNat)) (pre.drop (pre.length - k.toNat) ++ [q]) := by
      rw [withRowids_append, List.length_drop]
      have h : r0 + (pre.length - k.toNat) + (pre.length - (pre.length - k.toNat))
          = r0 + pre.length := by omega
      rw [h]
      rfl
    have hA : ageTrim q.2 (0 : Int)
        (withRowids (r0 + (pre.length - k.toNat)) (pre.drop (pre.length - k.toNat) ++ [q]))
        = withRowids (r0 + (pre.length - k.toNat)) (pre.drop (pre.length - k.toNat) ++ [q]) :=
      ageTrim_eq_self (fun h0 => absurd h0 (by omega))
    have hstep : Store.insert ⟨r0 + pre.length,
        withRowids (r0 + (pre.length - k.toNat)) (pre.drop (pre.length - k.toNat)), 0, k⟩ q.1 q.2
        = ⟨r0 + (pre ++ [q]).length,
          withRowids (r0 + ((pre ++ [q]).length - k.toNat))
            ((pre ++ [q]).drop ((pre ++ [q]).length - k.toNat)), 0, k⟩ := by
      simp only [Store.insert, happ, hA]
      by_cases hle : pre.length + 1 ≤ k.toNat
      · rw [countTrim_eq_self (by
          rw [withRowids_length, List.length_append, List.length_drop]
          simp only [List.length_cons, List.length_nil]
          omega)]
        have e1 : pre.length - k.toNat = 0 := by omega
        have e2 : (pre ++ [q]).length - k.toNat = 0 := by
          simp only [List.length_append, List.length_cons, List.length_nil]
          omega
        rw [e1, e2, List.drop_zero, List.drop_zero]
        have e3 : r0 + pre.length + 1 = r0 + (pre ++ [q]).length := by
          simp only [List.length_append, List.length_cons, List.length_nil]
          omega
        rw [e3]
      · have hκm : k.toNat ≤ pre.length := by omega
        have hsort : List.Sorted entryLE (withRowids (r0 + (pre.length - k.toNat))
            (pre.drop (pre.length - k.toNat) ++ [q])) := by
          refine sorted_withRowids _ (List.Pairwise.sublist ?_ hmono)
          exact List.Sublist.append (List.drop_sublist _ _)
            (List.Sublist.cons₂ q (List.nil_sublist qs))
        have hnodup : ((withRowids (r0 + (pre.length - k.toNat))
            (pre.drop (pre.length - k.toNat) ++ [q])).map Entry.rowid).Nodup := by
          rw [withRowids_map_rowid]
          exact List.nodup_range' _ _
        rw [countTrim_sorted hsort hnodup hk]
        have hlen1 : (withRowids (r0 + (pre.length - k.toNat))
            (pre.drop (pre.length - k.toNat) ++ [q])).length - k.toNat = 1 := by
          rw [withRowids_length, List.length_append, List.length_drop]
          simp only [List.length_cons, List.length_nil]
          omega
        rw [hlen1, withRowids_drop]
        have hdp : (pre.drop (pre.length - k.toNat) ++ [q]).drop 1
            = pre.drop (pre.length - k.toNat + 1) ++ [q] := by
          rw [List.drop_append_of_le_length (by rw [List.length_drop]; omega), List.drop_drop]
        rw [hdp]
        have e1 : (pre ++ [q]).length - k.toNat = pre.length - k.toNat + 1 := by
          simp only [List.length_append, List.length_cons, List.length_nil]
          omega
        rw [e1, List.drop_append_of_le_length (by omega)]
        have e2 : r0 + (pre.length - k.toNat) + 1 = r0 + (pre.length - k.toNat + 1) := by omega
        have e3 : r0 + pre.length + 1 = r0 + (pre ++ [q]).length := by
          simp only [List.length_append, List.length_cons, List.length_nil]
          omega
        rw [e2, e3]
    have hlist : (pre ++ [q]) ++ qs = pre ++ q :: qs := by simp
    have hrec := ih (pre ++ [q]) (by rw [hlist]; exact hmono)
    show Store.writeAll (Store.insert ⟨r0 + pre.length,
        withRowids (r0 + (pre.length - k.toNat)) (pre.drop (pre.length - k.toNat)), 0, k⟩
        q.1 q.2) qs = _
    rw [hstep, hrec, hlist]

/-! Bridging lemmas between the handle and its open store. -/

theorem Buf.writeAll_db {b : Buf} {st : Store} (h : b.db = some st) (ps : List (String × Int)) :
    (Buf.writeAll b ps).db = some (Store.writeAll st ps) := by
  induction ps generalizing b st with
  | nil => simpa [Buf.writeAll, Store.writeAll] using h
  | cons q qs ih =>
    have hw : (b.writeString q.1 q.2).db = some (st.insert q.1 q.2) := by
      simp [Buf.writeString, Buf.write, Buf.acquire, h]
    exact ih hw

theorem Buf.dump_db {b : Buf} {st : Store} (h : b.db = some st) :
    (b.dump).2 = st.dump := by
  simp [Buf.dump, Buf.acquire, h]

deriving instance DecidableEq for Except

theorem New_ok {l a : Int} {path : String} {b : Buf} (h : New l a path = Except.ok b) :
    b = ⟨l, a, path, some ⟨1, [], a, l⟩, none⟩ := by
  unfold New at h
  split_ifs at h with hc
  simp only [Except.ok.injEq] at h
  exact h.symm

/-- C1: with `maxEntries = k > 0` and `maxAge = 0`, after writing `n > k`
entries through the string-write path with nondecreasing store timestamps,
the store retains exactly the last `k` written entries (their rowids, i.e.
the insertion sequence, intact — equal timestamps are resolved newest-first
by rowid) and `dump` returns them oldest-first, whitespace-trimmed. -/
theorem count_based_retention (k : Int) (path : String) (ps : List (String × Int)) (b : Buf)
    (hk : 0 < k) (hb : New k 0 path = Except.ok b)
    (hmono : ps.Pairwise (fun x y => x.2 ≤ y.2))
    (hn : k.toNat < ps.length) :
    (Buf.writeAll b ps).db
        = some ⟨1 + ps.length,
            withRowids (1 + (ps.length - k.toNat)) (ps.drop (ps.length - k.toNat)), 0, k⟩
      ∧ (Buf.writeAll b ps).dump.2
        = (ps.drop (ps.length - k.toNat)).map (fun q => trimSpace q.1) := by
  have hbv := New_ok hb
  subst hbv
  have hst := Store.writeAll_count k hk 1 [] ps (by simpa using hmono)
  simp only [List.length_nil, Nat.zero_sub, List.drop_nil, withRowids, Nat.add_zero,
    List.nil_append] at hst
  have hdb := @Buf.writeAll_db ⟨k, 0, path, some ⟨1, [], 0, k⟩, none⟩ ⟨1, [], 0, k⟩ rfl ps
  rw [hst] at hdb
  refine ⟨hdb, ?_⟩
  rw [Buf.dump_db hdb]
  have hsorted : List.Sorted entryLE
      (withRowids (1 + (ps.length - k.toNat)) (ps.drop (ps.length - k.toNat))) :=
    sorted_withRowids _ (List.Pairwise.sublist (List.drop_sublist _ _) hmono)
  simp only [Store.dump, orderByTimestamp]
  rw [hsorted.insertionSort_eq, withRowids_map_payload]

/-- Witness for C1 at the spec's example: `maxEntries = 2`, writes
`"a", "b", "c"` with equal timestamps, `dump` = `["b", "c"]`. -/
theorem count_based_retention_witness :
    (0 : Int) < 2
    ∧ New 2 0 "log.db" = Except.ok ⟨2, 0, "log.db", some ⟨1, [], 0, 2⟩, none⟩
    ∧ List.Pairwise (fun x y => x.2 ≤ y.2) [("a", (0 : Int)), ("b", 0), ("c", 0)]
    ∧ (2 : Int).toNat < ([("a", (0 : Int)), ("b", 0), ("c", 0)]).length
    ∧ ((Buf.writeAll ⟨2, 0, "log.db", some ⟨1, [], 0, 2⟩, none⟩
          [("a", 0), ("b", 0), ("c", 0)]).db
        = some ⟨1 + ([("a", (0 : Int)), ("b", 0), ("c", 0)]).length,
            withRowids (1 + (([("a", (0 : Int)), ("b", 0), ("c", 0)]).length - (2 : Int).toNat))
              (([("a", (0 : Int)), ("b", 0), ("c", 0)]).drop
                (([("a", (0 : Int)), ("b", 0), ("c", 0)]).length - (2 : Int).toNat)), 0, 2⟩
      ∧ (Buf.writeAll ⟨2, 0, "log.db", some ⟨1, [], 0, 2⟩, none⟩
          [("a", 0), ("b", 0), ("c", 0)]).dump.2
        = (([("a", (0 : Int)), ("b", 0), ("c", 0)]).drop
            (([("a", (0 : Int)), ("b", 0), ("c", 0)]).length - (2 : Int).toNat)).map
            (fun q => trimSpace q.1))
    ∧ (([("a", (0 : Int)), ("b", 0), ("c", 0)]).drop
        (([("a", (0 : Int)), ("b", 0), ("c", 0)]).length - (2 : Int).toNat)).map
        (fun q => trimSpace q.1) = ["b", "c"] :=
  ⟨by decide, by decide, by decide, by decide,
    count_based_retention 2 "log.db" [("a", 0), ("b", 0), ("c", 0)] _ (by decide) (by decide)
      (by decide) (by decide), by decide⟩

/-- C3: round-trip — on a freshly created buffer, a sequence of
`writeString`s whose length and timestamp spread stay within the active
retention constraints dumps back exactly the written strings, in order,
whitespace-trimmed. -/
theorem round_trip (l a : Int) (path : String) (ps : List (String × Int)) (b : Buf)
    (hb : New l a path = Except.ok b)
    (hmono : ps.Pairwise (fun x y => x.2 ≤ y.2))
    (hage : 0 < a → ps.Pairwise (fun x y => y.2 - x.2 ≤ a))
    (hcount : 0 < l → ps.length ≤ l.toNat) :
    (Buf.writeAll b ps).dump.2 = ps.map (fun q => trimSpace q.1) := by
  have hbv := New_ok hb
  subst hbv
  have hst := Store.writeAll_no_trim a l 1 [] ps (by simpa using hage) (by simpa using hcount)
  simp only [List.length_nil, withRowids, Nat.add_zero, List.nil_append] at hst
  have hdb := @Buf.writeAll_db ⟨l, a, path, some ⟨1, [], a, l⟩, none⟩ ⟨1, [], a, l⟩ rfl ps
  rw [hst] at hdb
  rw [Buf.dump_db hdb]
  simp only [Store.dump, orderByTimestamp]
  rw [(sorted_withRowids 1 hmono).insertionSort_eq, withRowids_map_payload]

/-- Witness for C3: `maxLines = 10`, `maxAge = 0`, writing `"  a "` then
`"b"` dumps `["a", "b"]`. -/
theorem round_trip_witness :
    New 10 0 "log.db" = Except.ok ⟨10, 0, "log.db", some ⟨1, [], 0, 10⟩, none⟩
    ∧ List.Pairwise (fun x y => x.2 ≤ y.2) [("  a ", (1 : Int)), ("b", 2)]
    ∧ ((0 : Int) < 0 → List.Pairwise (fun x y => y.2 - x.2 ≤ (0 : Int))
        [("  a ", (1 : Int)), ("b", 2)])
    ∧ ((0 : Int) < 10 → ([("  a ", (1 : Int)), ("b", 2)]).length ≤ (10 : Int).toNat)
    ∧ (Buf.writeAll ⟨10, 0, "log.db", some ⟨1, [], 0, 10⟩, none⟩
        [("  a ", 1), ("b", 2)]).dump.2
      = ([("  a ", (1 : Int)), ("b", 2)]).map (fun q => trimSpace q.1)
    ∧ ([("  a ", (1 : Int)), ("b", 2)]).map (fun q => trimSpace q.1) = ["a", "b"] :=
  ⟨by decide, by decide, by decide, by decide,
    round_trip 10 0 "log.db" [("  a ", 1), ("b", 2)] _ (by decide) (by decide)
      (by decide) (by decide), by decide⟩

/-- C2 counterexample: with `maxAge = 5` and no count constraint, an entry
written at `t = 0` followed by a write whose assigned timestamp is exactly
`t + maxAge = 5` is still returned by `dump` (the trigger deletes only rows
with `timestamp < NEW.timestamp - maxAge`, a strict inequality), refuting
absence at timestamps `≥ t + maxAge`. -/
theorem age_retention_counterexample :
    New 0 5 "log.db" = Except.ok ⟨0, 5, "log.db", some ⟨1, [], 5, 0⟩, none⟩
    ∧ ((((⟨0, 5, "log.db", some ⟨1, [], 5, 0⟩, none⟩ : Buf).writeString "a" 0).writeString
        "b" 5).dump).2 = ["a", "b"] := by decide

/-- C2 amended: with `maxAge = d > 0`, the trim pass on an insert with
assigned timestamp `T` deletes every entry with timestamp `< T - d`; hence
an entry written at `t` is absent once a subsequent write commits with a
timestamp strictly greater than `t + d` (at exactly `t + d` it survives). -/
theorem age_retention_strict (s : Store) (d T : Int) (p : String)
    (hd : 0 < d) (hA : s.maxAge_ns = d) :
    ∀ e ∈ (s.insert p T).entries, T - d ≤ e.timestamp := by
  intro e he
  simp only [Store.insert] at he
  have h1 := mem_of_mem_countTrim he
  rw [hA] at h1
  exact ts_of_mem_ageTrim hd h1

/-- Witness for C2's amended theorem: `maxAge = 5`, an old entry at `t = 0`,
a write at `T = 6 > 0 + 5`; every retained entry has timestamp `≥ 1`. -/
theorem age_retention_strict_witness :
    (0 : Int) < 5 ∧ (⟨2, [⟨1, 0, "a"⟩], 5, 0⟩ : Store).maxAge_ns = 5
    ∧ ∀ e ∈ ((⟨2, [⟨1, 0, "a"⟩], 5, 0⟩ : Store).insert "b" 6).entries,
        (6 : Int) - 5 ≤ e.timestamp :=
  ⟨by decide, rfl, age_retention_strict ⟨2, [⟨1, 0, "a"⟩], 5, 0⟩ 5 6 "b" (by decide) rfl⟩

/-- C4: construction fails (with the config error) precisely when both
`maxLines` and `maxAge` are zero, and succeeds for every other pair, at any
location. -/
theorem construction_validation (l a : Int) (path : String) :
    (New l a path = Except.error configErrorMsg ↔ l = 0 ∧ a = 0)
    ∧ ((∃ b, New l a path = Except.ok b) ↔ ¬(l = 0 ∧ a = 0)) := by
  unfold New
  by_cases hc : l = 0 ∧ a = 0
  · rw [if_pos hc]
    refine ⟨⟨fun _ => hc, fun _ => rfl⟩, ⟨?_, fun h => absurd hc h⟩⟩
    rintro ⟨b, hb⟩
    simp at hb
  · rw [if_neg hc]
    refine ⟨⟨fun h => ?_, fun h => absurd h hc⟩, ⟨fun _ => hc, fun _ => ⟨_, rfl⟩⟩⟩
    simp at h

/-- C6: `dump` returns the trimmed UTF-8 decoding of the payloads of exactly
the retained entries (a permutation of the stored list), ordered by the
`(timestamp, rowid)` order — ascending timestamp, insertion-sequence
tiebreak, oldest first. -/
theorem dump_ordering (s : Store) :
    ∃ l, l.Perm s.entries ∧ List.Sorted entryLE l
      ∧ s.dump = l.map (fun e => trimSpace e.payload) :=
  ⟨orderByTimestamp s.entries, List.perm_insertionSort entryLE s.entries,
    List.sorted_insertionSort entryLE s.entries, rfl⟩

/-- C5: `Clear` always reports success; after it, `dump` transparently
recreates an empty store and returns no entries, and a subsequent
`writeString "x"` followed by `dump` returns `["x"]`. -/
theorem clear_semantics (b : Buf) (ts : Int) :
    (b.clear).2 = none
    ∧ ((b.clear).1.dump).2 = []
    ∧ (((b.clear).1.writeString "x" ts).dump).2 = ["x"] := by
  have hage1 : ageTrim ts b.maxAge_ns [⟨1, ts, "x"⟩] = [⟨1, ts, "x"⟩] := by
    refine ageTrim_eq_self (fun ha e he => ?_)
    have he2 : e = ⟨1, ts, "x"⟩ := by simpa using he
    rw [he2]
    show ts - b.maxAge_ns ≤ ts
    omega
  have hcount1 : countTrim b.maxLines [⟨1, ts, "x"⟩] = [⟨1, ts, "x"⟩] := by
    refine countTrim_eq_self_of (fun hk => ?_)
    simp only [List.length_cons, List.length_nil]
    omega
  refine ⟨rfl, ?_, ?_⟩
  · simp [Buf.clear, Buf.dump, Buf.acquire, Buf.openDB, Buf.storeFor, Store.dump,
      orderByTimestamp, List.insertionSort]
  · simp only [Buf.clear, Buf.writeString, Buf.write, Buf.acquire, Buf.openDB, Buf.storeFor,
      Buf.dump, Store.insert, Store.dump]
    simp only [List.nil_append, hage1, hcount1]
    simp [orderByTimestamp, List.insertionSort, List.orderedInsert]
    decide

/-- C8: `Close` is idempotent (any positive number of calls equals one),
never errors (it returns no value), and leaves the handle reusable: a
subsequent `Write` reports the full byte count and transparently reopens
the store, as does `Dump`. -/
theorem idempotent_close (b : Buf) (n : Nat) (p : String) (ts : Int) (hn : 0 < n) :
    Buf.close^[n] b = Buf.close b
    ∧ (Buf.close b).db = none
    ∧ ((Buf.close b).write p ts).2 = p.utf8ByteSize
    ∧ (((Buf.close b).write p ts).1.db).isSome = true
    ∧ (((Buf.close b).dump).1.db).isSome = true := by
  have hnone : (Buf.close b).db = none := by
    rcases b with ⟨ml, ma, path, db, file⟩
    cases db <;> simp [Buf.close]
  have hcc : Buf.close (Buf.close b) = Buf.close b := by
    rcases hd : (Buf.close b) with ⟨ml, ma, path, db, file⟩
    rw [hd] at hnone
    simp only at hnone
    subst hnone
    simp [Buf.close]
  have hiter0 : ∀ m, Buf.close^[m] (Buf.close b) = Buf.close b := by
    intro m
    induction m with
    | zero => rfl
    | succ j ih => rw [Function.iterate_succ_apply, hcc, ih]
  have hiter : Buf.close^[n] b = Buf.close b := by
    obtain ⟨m, rfl⟩ : ∃ m, n = m + 1 := ⟨n - 1, by omega⟩
    rw [Function.iterate_succ_apply, hiter0 m]
  exact ⟨hiter, hnone, rfl, by simp [Buf.write, Buf.acquire, hnone, Buf.openDB],
    by simp [Buf.dump, Buf.acquire, hnone, Buf.openDB]⟩

/-- Witness for C8: three `Close` calls on a concrete open handle equal one,
and a write after them reopens and reports the byte count. -/
theorem idempotent_close_witness :
    0 < 3
    ∧ (Buf.close^[3] (⟨2, 0, "log.db", some ⟨1, [], 0, 2⟩, none⟩ : Buf)
        = Buf.close ⟨2, 0, "log.db", some ⟨1, [], 0, 2⟩, none⟩
      ∧ (Buf.close (⟨2, 0, "log.db", some ⟨1, [], 0, 2⟩, none⟩ : Buf)).db = none
      ∧ ((Buf.close (⟨2, 0, "log.db", some ⟨1, [], 0, 2⟩, none⟩ : Buf)).write "x" 7).2
          = ("x").utf8ByteSize
      ∧ (((Buf.close (⟨2, 0, "log.db", some ⟨1, [], 0, 2⟩, none⟩ : Buf)).write "x" 7).1.db).isSome
          = true
      ∧ (((Buf.close (⟨2, 0, "log.db", some ⟨1, [], 0, 2⟩, none⟩ : Buf)).dump).1.db).isSome
          = true) :=
  ⟨by decide, idempotent_close ⟨2, 0, "log.db", some ⟨1, [], 0, 2⟩, none⟩ 3 "x" 7 (by decide)⟩

/-- The policy invariant of a handle: whatever store is held by the open
connection or sits in the database file carries, in its `log_settings`
record, exactly the handle's bound policy pair. -/
def policyRecorded (b : Buf) : Prop :=
  (∀ st, b.db = some st → st.maxLines = b.maxLines ∧ st.maxAge_ns = b.maxAge_ns) ∧
  (∀ st, b.file = some st → st.maxLines = b.maxLines ∧ st.maxAge_ns = b.maxAge_ns)

theorem storeFor_policy (b : Buf) :
    (b.storeFor).maxLines = b.maxLines ∧ (b.storeFor).maxAge_ns = b.maxAge_ns := by
  unfold Buf.storeFor
  rcases b with ⟨ml, ma, path, db, file⟩
  cases file <;> simp

theorem policyRecorded_openDB (b : Buf) : policyRecorded b.openDB := by
  obtain ⟨h1, h2⟩ := storeFor_policy b
  constructor
  · intro st hst
    have he : b.storeFor = st := by simpa [Buf.openDB] using hst
    subst he
    exact ⟨h1, h2⟩
  · intro st hst
    simp [Buf.openDB] at hst

theorem acquire_facts {b : Buf} (h : policyRecorded b) :
    (b.acquire).1.maxLines = b.maxLines
    ∧ (b.acquire).1.maxAge_ns = b.maxAge_ns
    ∧ policyRecorded (b.acquire).1
    ∧ (b.acquire).2.maxLines = b.maxLines
    ∧ (b.acquire).2.maxAge_ns = b.maxAge_ns := by
  rcases hdb : b.db with _ | st
  · have e1 : b.acquire = (b.openDB, b.storeFor) := by simp [Buf.acquire, hdb]
    rw [e1]
    obtain ⟨h1, h2⟩ := storeFor_policy b
    exact ⟨rfl, rfl, policyRecorded_openDB b, h1, h2⟩
  · have e1 : b.acquire = (b, st) := by simp [Buf.acquire, hdb]
    rw [e1]
    exact ⟨rfl, rfl, h, (h.1 st hdb).1, (h.1 st hdb).2⟩

theorem insert_policy (s : Store) (p : String) (ts : Int) :
    (s.insert p ts).maxLines = s.maxLines ∧ (s.insert p ts).maxAge_ns = s.maxAge_ns :=
  ⟨rfl, rfl⟩

theorem write_policy {b : Buf} (h : policyRecorded b) (p : String) (ts : Int) :
    ((b.write p ts).1).maxLines = b.maxLines
    ∧ ((b.write p ts).1).maxAge_ns = b.maxAge_ns
    ∧ policyRecorded (b.write p ts).1 := by
  obtain ⟨a1, a2, a3, a4, a5⟩ := acquire_facts h
  refine ⟨a1, a2, ⟨?_, ?_⟩⟩
  · intro st hst
    have he : (b.acquire).2.insert p ts = st := by simpa [Buf.write] using hst
    subst he
    exact ⟨a4.trans a1.symm, a5.trans a2.symm⟩
  · intro st hst
    have hf : (b.acquire).1.file = some st := by simpa [Buf.write] using hst
    obtain ⟨p1, p2⟩ := a3.2 st hf
    exact ⟨(p1.trans a1).trans a1.symm, (p2.trans a2).trans a2.symm⟩

theorem applyOp_policy {b : Buf} (h : policyRecorded b) (o : Op) :
    (b.applyOp o).maxLines = b.maxLines ∧ (b.applyOp o).maxAge_ns = b.maxAge_ns
    ∧ policyRecorded (b.applyOp o) := by
  cases o with
  | write p ts => exact write_policy h p ts
  | writeString s ts => exact write_policy h s ts
  | dump =>
    obtain ⟨a1, a2, a3, _, _⟩ := acquire_facts h
    exact ⟨a1, a2, a3⟩
  | close =>
    rcases hdb : b.db with _ | st
    · have e1 : b.applyOp Op.close = b := by simp [Buf.applyOp, Buf.close, hdb]
      rw [e1]
      exact ⟨rfl, rfl, h⟩
    · have e1 : b.applyOp Op.close
          = { b with db := none, file := if b.dbPath = ":memory:" then none else some st } := by
        simp [Buf.applyOp, Buf.close, hdb]
      rw [e1]
      refine ⟨rfl, rfl, fun st2 hst2 => by simp at hst2, fun st2 hst2 => ?_⟩
      have hst3 : (if b.dbPath = ":memory:" then none else some st) = some st2 := hst2
      split_ifs at hst3 with hmem
      have he : st = st2 := Option.some.inj hst3
      subst he
      exact ⟨(h.1 st hdb).1, (h.1 st hdb).2⟩
  | clear =>
    refine ⟨rfl, rfl, ⟨fun st hst => by simp [Buf.applyOp, Buf.clear] at hst,
      fun st hst => by simp [Buf.applyOp, Buf.clear] at hst⟩⟩

theorem applyOps_policy {b : Buf} (h : policyRecorded b) (ops : List Op) :
    (b.applyOps ops).maxLines = b.maxLines ∧ (b.applyOps ops).maxAge_ns = b.maxAge_ns
    ∧ policyRecorded (b.applyOps ops) := by
  induction ops generalizing b with
  | nil => exact ⟨rfl, rfl, h⟩
  | cons o os ih =>
    obtain ⟨h1, h2, h3⟩ := applyOp_policy h o
    obtain ⟨g1, g2, g3⟩ := ih h3
    have e : b.applyOps (o :: os) = (b.applyOp o).applyOps os := rfl
    exact ⟨by rw [e, g1, h1], by rw [e, g2, h2], by rw [e]; exact g3⟩

/-- C9: the policy pair bound by `New` survives every sequence of public
operations unchanged, and whenever a store is open its `log_settings`
record holds exactly that pair. -/
theorem retention_policy_immutable (l a : Int) (path : String) (b : Buf) (ops : List Op)
    (hb : New l a path = Except.ok b) :
    (b.applyOps ops).maxLines = l ∧ (b.applyOps ops).maxAge_ns = a
    ∧ ∀ st, (b.applyOps ops).db = some st → st.maxLines = l ∧ st.maxAge_ns = a := by
  have hbv := New_ok hb
  subst hbv
  have hpr : policyRecorded ⟨l, a, path, some ⟨1, [], a, l⟩, none⟩ := by
    constructor
    · intro st hst
      have he : (⟨1, [], a, l⟩ : Store) = st := by simpa using hst
      subst he
      exact ⟨rfl, rfl⟩
    · intro st hst
      simp at hst
  obtain ⟨g1, g2, g3⟩ := applyOps_policy hpr ops
  refine ⟨g1, g2, fun st hst => ?_⟩
  obtain ⟨p1, p2⟩ := g3.1 st hst
  exact ⟨p1.trans g1, p2.trans g2⟩

/-- Witness for C9: a concrete handle with policy (2, 7) keeps it across a
write, a close, a dump, a clear and another write. -/
theorem retention_policy_immutable_witness :
    New 2 7 "log.db" = Except.ok ⟨2, 7, "log.db", some ⟨1, [], 7, 2⟩, none⟩
    ∧ ((Buf.applyOps ⟨2, 7, "log.db", some ⟨1, [], 7, 2⟩, none⟩
          [Op.writeString "a" 1, Op.close, Op.dump, Op.clear, Op.write "b" 2]).maxLines = 2
      ∧ (Buf.applyOps ⟨2, 7, "log.db", some ⟨1, [], 7, 2⟩, none⟩
          [Op.writeString "a" 1, Op.close, Op.dump, Op.clear, Op.write "b" 2]).maxAge_ns = 7
      ∧ ∀ st, (Buf.applyOps ⟨2, 7, "log.db", some ⟨1, [], 7, 2⟩, none⟩
          [Op.writeString "a" 1, Op.close, Op.dump, Op.clear, Op.write "b" 2]).db = some st →
            st.maxLines = 2 ∧ st.maxAge_ns = 7) :=
  ⟨by decide, retention_policy_immutable 2 7 "log.db" ⟨2, 7, "log.db", some ⟨1, [], 7, 2⟩, none⟩
    [Op.writeString "a" 1, Op.close, Op.dump, Op.clear, Op.write "b" 2] (by decide)⟩

/-- C10 (implicit): `New` accepts negative constraint values — every pair
with `maxLines` and `maxAge` not both zero (negative values included)
constructs successfully — and each trigger delete fires only when its own
setting is strictly positive, so a non-positive constraint is disabled
independently of the other: with `maxLines ≤ 0` an insert performs only the
age delete, with `maxAge ≤ 0` only the count delete, and a buffer built
with both non-positive (e.g. `New (-1) 0 path`) accumulates every write
with no retention trimming at all. -/
theorem nonpositive_constraints_no_trim (l a : Int) (path : String)
    (hne : ¬(l = 0 ∧ a = 0)) :
    (∃ b, New l a path = Except.ok b)
    ∧ (∀ (s : Store) (p : String) (ts : Int), s.maxLines ≤ 0 →
        (s.insert p ts).entries
          = ageTrim ts s.maxAge_ns (s.entries ++ [⟨s.nextRowid, ts, p⟩]))
    ∧ (∀ (s : Store) (p : String) (ts : Int), s.maxAge_ns ≤ 0 →
        (s.insert p ts).entries
          = countTrim s.maxLines (s.entries ++ [⟨s.nextRowid, ts, p⟩]))
    ∧ (∀ (b : Buf) (ps : List (String × Int)), l ≤ 0 → a ≤ 0 →
        New l a path = Except.ok b →
        (Buf.writeAll b ps).db = some ⟨1 + ps.length, withRowids 1 ps, a, l⟩) := by
  refine ⟨?_, ?_, ?_, ?_⟩
  · unfold New
    rw [if_neg hne]
    exact ⟨_, rfl⟩
  · intro s p ts hsl
    simp only [Store.insert]
    rw [countTrim_eq_self_of (fun hk => absurd hk (by omega))]
  · intro s p ts hsa
    simp only [Store.insert]
    rw [ageTrim_eq_self (fun h0 => absurd h0 (by omega))]
  · intro b ps hl ha hb
    have hbv := New_ok hb
    subst hbv
    have hst := Store.writeAll_no_trim a l 1 [] ps (fun h0 => absurd h0 (by omega))
      (fun hk => absurd hk (by omega))
    simp only [List.length_nil, withRowids, Nat.add_zero, List.nil_append] at hst
    have hdb := @Buf.writeAll_db ⟨l, a, path, some ⟨1, [], a, l⟩, none⟩ ⟨1, [], a, l⟩ rfl ps
    rw [hst] at hdb
    exact hdb

/-- Witness for C10: the mixed-sign pair `(-1, 5)` constructs successfully
and has its count delete disabled while age trimming stays available, and
the pair `(-1, 0)` yields a buffer that accumulates every write with no
trimming at all. -/
theorem nonpositive_constraints_no_trim_witness :
    ¬((-1 : Int) = 0 ∧ (5 : Int) = 0)
    ∧ (∃ b, New (-1) 5 "log.db" = Except.ok b)
    ∧ (∀ (s : Store) (p : String) (ts : Int), s.maxLines ≤ 0 →
        (s.insert p ts).entries
          = ageTrim ts s.maxAge_ns (s.entries ++ [⟨s.nextRowid, ts, p⟩]))
    ∧ ¬((-1 : Int) = 0 ∧ (0 : Int) = 0)
    ∧ (∀ (b : Buf) (ps : List (String × Int)), (-1 : Int) ≤ 0 → (0 : Int) ≤ 0 →
        New (-1) 0 "log.db" = Except.ok b →
        (Buf.writeAll b ps).db = some ⟨1 + ps.length, withRowids 1 ps, 0, -1⟩) :=
  ⟨by decide, (nonpositive_constraints_no_trim (-1) 5 "log.db" (by decide)).1,
    (nonpositive_constraints_no_trim (-1) 5 "log.db" (by decide)).2.1,
    by decide, (nonpositive_constraints_no_trim (-1) 0 "log.db" (by decide)).2.2.2⟩
